import Mathlib

set_option maxRecDepth 1000000

/-!
Shallow embedding of the segment-cleaning simulator (`segment_adv4.c`).

Segments hold a per-byte validity map plus aggregate counters; a manager
holds a pool of segments and global statistics.  The C constants
`SEGMENT_SIZE` and `NUM_SEGMENTS` appear as explicit parameters `ss`
(segment capacity in bytes) and `ns` (number of segments) of every
operation, instantiated to 1024 at the top level as in the source.
`double` arithmetic in the GC cost model is embedded as exact rationals.
-/

namespace SegSim

/-- Number of true bits in a validity map. -/
def countTrue (l : List Bool) : Nat := l.count true

/-- Mirror of the C `Segment` struct. -/
structure Segment where
  segmentId : Nat
  utilization : Nat
  data : List Nat
  valid : List Bool
  invalidatedBytes : Nat
deriving DecidableEq, Repr

/-- Default segment used for out-of-range list reads (never hit on the paths
the code takes, since indices come from in-range searches). -/
def emptySegment : Segment :=
  { segmentId := 0, utilization := 0, data := [], valid := [], invalidatedBytes := 0 }

instance : Inhabited Segment := ⟨emptySegment⟩

/-- Mirror of the C `SegmentManager` struct. -/
structure SegmentManager where
  segments : List Segment
  totalWrites : Nat
  totalInvalidated : Nat
  gcCount : Nat
  totalGcCost : ℚ
deriving DecidableEq, Repr

/-- Mirror of the C `WriteRequest` struct. -/
structure WriteRequest where
  offset : Nat
  size : Nat
deriving DecidableEq, Repr

/-- `SEGMENT_SIZE` from the source. -/
def SEGMENT_SIZE : Nat := 1024

/-- `NUM_SEGMENTS` from the source. -/
def NUM_SEGMENTS : Nat := 1024

/-- Outcome of `processWriteRequest` (the C code reports allocation failure
on stdout and returns; we surface it as a value). -/
inductive WriteOutcome where
  | Accepted : WriteOutcome
  | AllocationFailure : WriteOutcome
deriving DecidableEq, Repr

/-- Outcome of `garbageCollect`.  `VictimReclaimed v c` carries the victim's
index and the GC cost: `some q` for the finite cost added to `totalGcCost`,
`none` for the infinite sentinel the C code prints as `∞`. -/
inductive GcOutcome where
  | VictimReclaimed : Nat → Option ℚ → GcOutcome
  | NoVictim : GcOutcome
  | NoDestination : GcOutcome
deriving DecidableEq, Repr

/-- One segment in the state `initSegmentManager` establishes. -/
def initSegment (ss i : Nat) : Segment :=
  { segmentId := i
    utilization := 0
    data := List.replicate ss 0
    valid := List.replicate ss false
    invalidatedBytes := 0 }

/-- C `initSegmentManager`: `ns` fresh segments, all counters zero. -/
def initSegmentManager (ns ss : Nat) : SegmentManager :=
  { segments := (List.range ns).map (initSegment ss)
    totalWrites := 0
    totalInvalidated := 0
    gcCount := 0
    totalGcCost := 0 }

/-- Loop body of `findSegmentForWrite`, scanning from index `i`. -/
def findSegAux (ss size : Nat) : Nat → List Segment → Option Nat
  | _, [] => none
  | i, s :: rest =>
    if s.utilization + size ≤ ss then some i else findSegAux ss size (i + 1) rest

/-- C `findSegmentForWrite`: first-fit scan in ascending id order; `none`
models the C `NULL` return. -/
def findSegmentForWrite (ss : Nat) (m : SegmentManager) (size : Nat) : Option Nat :=
  findSegAux ss size 0 m.segments

/-- One iteration of the `invalidateOldData` loop at position `i`: the pair
carries the segment together with the manager's `totalInvalidated`. -/
def invalidateStep (ss : Nat) (p : Segment × Nat) (i : Nat) : Segment × Nat :=
  if i < ss ∧ p.1.valid.getD i false then
    ({ p.1 with
        valid := p.1.valid.set i false
        utilization := p.1.utilization - 1
        invalidatedBytes := p.1.invalidatedBytes + 1 },
      p.2 + 1)
  else p

/-- C `invalidateOldData`: walk `[offset, offset + size)`, clearing valid
bytes and bumping the invalidation counters. -/
def invalidateOldData (ss : Nat) : Segment × Nat → Nat → Nat → Segment × Nat
  | p, _, 0 => p
  | p, offset, size + 1 =>
    invalidateOldData ss (invalidateStep ss p offset) (offset + 1) size

/-- One iteration of the `writeToSegment` loop at position `i`: the data
byte is stamped either way, and an invalid byte additionally becomes valid
and counted. -/
def writeStep (ss : Nat) (s : Segment) (i : Nat) : Segment :=
  if i < ss then
    if s.valid.getD i false then { s with data := s.data.set i 1 }
    else
      { s with
          data := s.data.set i 1
          valid := s.valid.set i true
          utilization := s.utilization + 1 }
  else s

/-- C `writeToSegment`: walk `[offset, offset + size)`, marking in-bounds
bytes valid (already-valid bytes are not double counted). -/
def writeToSegment (ss : Nat) : Segment → Nat → Nat → Segment
  | s, _, 0 => s
  | s, offset, size + 1 => writeToSegment ss (writeStep ss s offset) (offset + 1) size

/-- The successful tail of `processWriteRequest`: invalidate old data in the
target segment, write the new data, and count the write. -/
def performWrite (ss : Nat) (m : SegmentManager) (idx offset size : Nat) : SegmentManager :=
  let s0 := m.segments.getD idx emptySegment
  let p := invalidateOldData ss (s0, m.totalInvalidated) offset size
  let s2 := writeToSegment ss p.1 offset size
  { m with
      segments := m.segments.set idx s2
      totalInvalidated := p.2
      totalWrites := m.totalWrites + 1 }

/-- Loop body of the victim scan in `garbageCollect` (`victimIndex` starts
as `none` for the C `-1`, `maxInv` as `0`). -/
def selectVictimAux : Nat → Option Nat → Nat → List Segment → Option Nat
  | _, best, _, [] => best
  | i, best, maxInv, s :: rest =>
    if maxInv < s.invalidatedBytes ∧ 0 < s.utilization then
      selectVictimAux (i + 1) (some i) s.invalidatedBytes rest
    else
      selectVictimAux (i + 1) best maxInv rest

/-- Victim selection loop of `garbageCollect`. -/
def selectVictim (segs : List Segment) : Option Nat :=
  selectVictimAux 0 none 0 segs

/-- One iteration of the compaction loop: if byte `i` of the victim is valid,
copy it to the destination via the ordinary write path and clear the source
bit.  Working through the manager keeps the C pointer aliasing (the
destination may be the victim itself) faithful. -/
def gcCopyStep (ss vIdx dIdx : Nat) (m : SegmentManager) (i : Nat) : SegmentManager :=
  let v := m.segments.getD vIdx emptySegment
  if v.valid.getD i false then
    let m1 :=
      { m with segments :=
          m.segments.set dIdx (writeToSegment ss (m.segments.getD dIdx emptySegment) i 1) }
    let v1 := m1.segments.getD vIdx emptySegment
    { m1 with segments := m1.segments.set vIdx ({ v1 with valid := v1.valid.set i false }) }
  else m

/-- Compaction loop of `garbageCollect` over positions `[i, i + n)`. -/
def gcCopyAux (ss vIdx dIdx : Nat) : SegmentManager → Nat → Nat → SegmentManager
  | m, _, 0 => m
  | m, i, n + 1 => gcCopyAux ss vIdx dIdx (gcCopyStep ss vIdx dIdx m i) (i + 1) n

/-- Full compaction pass over all `ss` positions of the victim. -/
def gcCopy (ss vIdx dIdx : Nat) (m : SegmentManager) : SegmentManager :=
  gcCopyAux ss vIdx dIdx m 0 ss

/-- C `garbageCollect`: select a victim, find a destination with the
zero-size allocator call, compact, reset the victim (the C `memset` clears
`data`; `valid` was already cleared by the loop), and account the cost. -/
def garbageCollect (ns ss : Nat) (m : SegmentManager) : SegmentManager × GcOutcome :=
  match selectVictim m.segments with
  | none => (m, GcOutcome.NoVictim)
  | some vIdx =>
    match findSegmentForWrite ss m 0 with
    | none => (m, GcOutcome.NoDestination)
    | some dIdx =>
      let m1 := gcCopy ss vIdx dIdx m
      let v := m1.segments.getD vIdx emptySegment
      let vReset :=
        { v with utilization := 0, invalidatedBytes := 0, data := List.replicate ss 0 }
      let m2 := { m1 with segments := m1.segments.set vIdx vReset }
      let fillRatio : ℚ := Rat.divInt m2.totalWrites (ns * ss)
      if fillRatio < 1 then
        ({ m2 with
            totalGcCost := m2.totalGcCost + 2 / (1 - fillRatio)
            gcCount := m2.gcCount + 1 },
          GcOutcome.VictimReclaimed vIdx (some (2 / (1 - fillRatio))))
      else
        ({ m2 with gcCount := m2.gcCount + 1 }, GcOutcome.VictimReclaimed vIdx none)

/-- C `processWriteRequest`: allocate, on failure force one GC and retry
exactly once, then invalidate + write + count. -/
def processWriteRequest (ns ss : Nat) (m : SegmentManager) (r : WriteRequest) :
    SegmentManager × WriteOutcome :=
  match findSegmentForWrite ss m r.size with
  | some idx => (performWrite ss m idx r.offset r.size, WriteOutcome.Accepted)
  | none =>
    let m1 := (garbageCollect ns ss m).1
    match findSegmentForWrite ss m1 r.size with
    | some idx => (performWrite ss m1 idx r.offset r.size, WriteOutcome.Accepted)
    | none => (m1, WriteOutcome.AllocationFailure)

/-- Number of segments with positive utilization (`usedSegments` in the C
`isGarbageCollectionNeeded`). -/
def usedSegments (m : SegmentManager) : Nat :=
  m.segments.countP (fun s => decide (0 < s.utilization))

/-- C `isGarbageCollectionNeeded`: used fraction at least the `0.9` threshold
(the `double` comparison is embedded as the exact rational one, phrased with
`Rat.divInt` so it evaluates). -/
def isGarbageCollectionNeeded (ns : Nat) (m : SegmentManager) : Bool :=
  decide (Rat.divInt 9 10 ≤ Rat.divInt (usedSegments m) ns)

/-- One observable operation on the store. -/
inductive Step (ns ss : Nat) : SegmentManager → SegmentManager → Prop where
  | write (m : SegmentManager) (r : WriteRequest) :
      Step ns ss m (processWriteRequest ns ss m r).1
  | gc (m : SegmentManager) : Step ns ss m (garbageCollect ns ss m).1

/-- States reachable from a freshly initialized store by any sequence of
write requests and garbage collections. -/
inductive Reachable (ns ss : Nat) : SegmentManager → Prop where
  | init : Reachable ns ss (initSegmentManager ns ss)
  | step {m m' : SegmentManager} : Reachable ns ss m → Step ns ss m m' → Reachable ns ss m'

/-- Well-formedness of one segment: the validity map has the declared
capacity and `utilization` counts its true bits. -/
def SegWF (ss : Nat) (s : Segment) : Prop :=
  s.valid.length = ss ∧ s.utilization = countTrue s.valid

/-- Well-formedness of the whole store. -/
def WF (ss : Nat) (m : SegmentManager) : Prop :=
  ∀ k, k < m.segments.length → SegWF ss (m.segments.getD k emptySegment)

instance (ss : Nat) (s : Segment) : Decidable (SegWF ss s) := by
  unfold SegWF
  infer_instance

instance (ss : Nat) (m : SegmentManager) : Decidable (WF ss m) := by
  unfold WF
  infer_instance

/-! ### Concrete stores used to exercise the theorems -/

/-- The store after `write(offset=0, size=5)` on a fresh pool at the source
constants. -/
def scenarioW1 : SegmentManager :=
  (processWriteRequest NUM_SEGMENTS SEGMENT_SIZE
    (initSegmentManager NUM_SEGMENTS SEGMENT_SIZE) ⟨0, 5⟩).1

/-- The store after the further `write(offset=2, size=3)`. -/
def scenarioW2 : SegmentManager :=
  (processWriteRequest NUM_SEGMENTS SEGMENT_SIZE scenarioW1 ⟨2, 3⟩).1

/-- A small pool (2 segments of capacity 4) after two overlapping writes:
segment 0 has utilization 2 and invalidatedBytes 2. -/
def failDemo2 : SegmentManager :=
  (processWriteRequest 2 4
    ((processWriteRequest 2 4 (initSegmentManager 2 4) ⟨0, 2⟩).1) ⟨0, 2⟩).1

/-- Two non-empty segments: A has `utilization 5, invalidatedBytes 10`,
B has `utilization 3, invalidatedBytes 20`. -/
def victimDemo : SegmentManager :=
  { segments :=
      [{ segmentId := 0, utilization := 5, data := List.replicate 8 0,
         valid := List.replicate 8 false, invalidatedBytes := 10 },
       { segmentId := 1, utilization := 3, data := List.replicate 8 0,
         valid := List.replicate 8 false, invalidatedBytes := 20 }]
    totalWrites := 8
    totalInvalidated := 30
    gcCount := 0
    totalGcCost := 0 }

/-- A single capacity-4 segment whose byte 0 is valid. -/
def clipSeg : Segment :=
  { segmentId := 0, utilization := 1, data := List.replicate 4 0,
    valid := [true, false, false, false], invalidatedBytes := 0 }

/-! ### List helper lemmas -/

theorem getD_set_ne {α : Type _} (d : α) (l : List α) {i j : Nat} (b : α) (h : i ≠ j) :
    (l.set i b).getD j d = l.getD j d := by
  induction l generalizing i j with
  | nil => rfl
  | cons a t ih =>
    cases i with
    | zero => cases j with
      | zero => exact absurd rfl h
      | succ j => rfl
    | succ i => cases j with
      | zero => rfl
      | succ j => exact ih (fun hij => h (by omega))

theorem getD_set_self {α : Type _} (d : α) (l : List α) {i : Nat} (b : α)
    (h : i < l.length) : (l.set i b).getD i d = b := by
  induction l generalizing i with
  | nil => simp at h
  | cons a t ih =>
    cases i with
    | zero => rfl
    | succ i => exact ih (Nat.lt_of_succ_lt_succ h)

theorem getD_true_lt (l : List Bool) {i : Nat} (h : l.getD i false = true) :
    i < l.length := by
  by_contra hge
  rw [List.getD_eq_default l false (Nat.le_of_not_lt hge)] at h
  exact Bool.false_ne_true h

theorem countTrue_nil : countTrue [] = 0 := rfl

theorem countTrue_cons (a : Bool) (l : List Bool) :
    countTrue (a :: l) = countTrue l + (if a then 1 else 0) := by
  cases a <;> simp [countTrue, List.count_cons]

theorem countTrue_le_length (l : List Bool) : countTrue l ≤ l.length :=
  List.count_le_length true l

theorem countTrue_replicate (n : Nat) : countTrue (List.replicate n false) = 0 := by
  induction n with
  | zero => rfl
  | succ n ih => simp [List.replicate, countTrue_cons, ih]

theorem countTrue_set_false (l : List Bool) {i : Nat} (h : l.getD i false = true) :
    countTrue (l.set i false) + 1 = countTrue l := by
  induction l generalizing i with
  | nil => simp [List.getD] at h
  | cons a t ih =>
    cases i with
    | zero =>
      have ha : a = true := h
      subst ha
      simp [List.set, countTrue_cons]
    | succ i =>
      have ht : t.getD i false = true := h
      simp only [List.set, countTrue_cons]
      have := ih ht
      omega

theorem countTrue_set_true (l : List Bool) {i : Nat} (hlen : i < l.length)
    (h : l.getD i false = false) : countTrue (l.set i true) = countTrue l + 1 := by
  induction l generalizing i with
  | nil => simp at hlen
  | cons a t ih =>
    cases i with
    | zero =>
      have ha : a = false := h
      subst ha
      simp [List.set, countTrue_cons]
    | succ i =>
      have ht : t.getD i false = false := h
      simp only [List.set, countTrue_cons]
      have := ih (Nat.lt_of_succ_lt_succ hlen) ht
      omega

theorem countTrue_eq_zero (l : List Bool) (h : ∀ i, i < l.length → l.getD i false = false) :
    countTrue l = 0 := by
  induction l with
  | nil => rfl
  | cons a t ih =>
    have ha : a = false := h 0 (Nat.succ_pos _)
    subst ha
    have := ih (fun i hi => h (i + 1) (Nat.succ_lt_succ hi))
    simp [countTrue_cons, this]

theorem countTrue_pos (l : List Bool) {i : Nat} (h : l.getD i false = true) :
    0 < countTrue l := by
  induction l generalizing i with
  | nil => simp [List.getD] at h
  | cons a t ih =>
    cases i with
    | zero =>
      have ha : a = true := h
      subst ha
      simp [countTrue_cons]
    | succ i =>
      have := ih (i := i) h
      simp [countTrue_cons]
      omega

/-! ### Invalidation lemmas -/

theorem invalidateStep_basic (ss : Nat) (p : Segment × Nat) (i : Nat) :
    (invalidateStep ss p i).1.segmentId = p.1.segmentId ∧
    (invalidateStep ss p i).1.data = p.1.data ∧
    (invalidateStep ss p i).1.valid.length = p.1.valid.length ∧
    p.1.invalidatedBytes ≤ (invalidateStep ss p i).1.invalidatedBytes ∧
    p.2 ≤ (invalidateStep ss p i).2 := by
  unfold invalidateStep
  split
  · simp [List.length_set]
  · simp

theorem invalidateStep_wf (ss : Nat) (p : Segment × Nat) (i : Nat)
    (hwf : SegWF ss p.1) : SegWF ss (invalidateStep ss p i).1 := by
  unfold invalidateStep
  split
  · rename_i h
    obtain ⟨hlen, hcnt⟩ := hwf
    have hv : p.1.valid.getD i false = true := h.2
    have hdrop := countTrue_set_false p.1.valid hv
    exact ⟨by simpa [List.length_set] using hlen, by simp; omega⟩
  · exact hwf

theorem invalidateStep_frame (ss : Nat) (p : Segment × Nat) (i j : Nat)
    (h : i ≠ j ∨ ss ≤ j) :
    (invalidateStep ss p i).1.valid.getD j false = p.1.valid.getD j false := by
  unfold invalidateStep
  split
  · rename_i hc
    rcases h with h | h
    · exact getD_set_ne false p.1.valid false h
    · have hij : i ≠ j := fun he => absurd (he ▸ hc.1) (Nat.not_lt.mpr h)
      exact getD_set_ne false p.1.valid false hij
  · rfl

theorem invalidateOldData_basic (ss : Nat) :
    ∀ (size offset : Nat) (p : Segment × Nat),
    (invalidateOldData ss p offset size).1.segmentId = p.1.segmentId ∧
    (invalidateOldData ss p offset size).1.data = p.1.data ∧
    (invalidateOldData ss p offset size).1.valid.length = p.1.valid.length ∧
    p.1.invalidatedBytes ≤ (invalidateOldData ss p offset size).1.invalidatedBytes ∧
    p.2 ≤ (invalidateOldData ss p offset size).2 := by
  intro size
  induction size with
  | zero => intro offset p; exact ⟨rfl, rfl, rfl, Nat.le_refl _, Nat.le_refl _⟩
  | succ n ih =>
    intro offset p
    have hstep := invalidateStep_basic ss p offset
    have := ih (offset + 1) (invalidateStep ss p offset)
    unfold invalidateOldData
    exact ⟨this.1.trans hstep.1, this.2.1.trans hstep.2.1,
      this.2.2.1.trans hstep.2.2.1,
      hstep.2.2.2.1.trans this.2.2.2.1, hstep.2.2.2.2.trans this.2.2.2.2⟩

theorem invalidateOldData_wf (ss : Nat) :
    ∀ (size offset : Nat) (p : Segment × Nat), SegWF ss p.1 →
    SegWF ss (invalidateOldData ss p offset size).1 := by
  intro size
  induction size with
  | zero => intro offset p hwf; exact hwf
  | succ n ih =>
    intro offset p hwf
    unfold invalidateOldData
    exact ih (offset + 1) _ (invalidateStep_wf ss p offset hwf)

theorem invalidateOldData_frame (ss : Nat) :
    ∀ (size offset : Nat) (p : Segment × Nat) (j : Nat),
    ((∀ k, k < size → offset + k ≠ j) ∨ ss ≤ j) →
    (invalidateOldData ss p offset size).1.valid.getD j false = p.1.valid.getD j false := by
  intro size
  induction size with
  | zero => intro offset p j _; rfl
  | succ n ih =>
    intro offset p j h
    have hstep : (invalidateStep ss p offset).1.valid.getD j false = p.1.valid.getD j false := by
      apply invalidateStep_frame
      rcases h with h | h
      · exact Or.inl (by simpa using h 0 (Nat.succ_pos n))
      · exact Or.inr h
    have htail : ((∀ k, k < n → (offset + 1) + k ≠ j) ∨ ss ≤ j) := by
      rcases h with h | h
      · exact Or.inl (fun k hk => by
          have := h (k + 1) (Nat.succ_lt_succ hk); omega)
      · exact Or.inr h
    unfold invalidateOldData
    rw [ih (offset + 1) (invalidateStep ss p offset) j htail, hstep]

theorem invalidateOldData_clears (ss : Nat) :
    ∀ (size offset : Nat) (p : Segment × Nat), p.1.valid.length = ss →
    ∀ k, k < size → offset + k < ss →
    (invalidateOldData ss p offset size).1.valid.getD (offset + k) false = false := by
  intro size
  induction size with
  | zero => intro _ _ _ k hk; omega
  | succ n ih =>
    intro offset p hlen k hk hbound
    unfold invalidateOldData
    have hlen' : (invalidateStep ss p offset).1.valid.length = ss :=
      (invalidateStep_basic ss p offset).2.2.1.trans hlen
    cases k with
    | zero =>
      have hoff : offset < ss := by omega
      have hcleared : (invalidateStep ss p offset).1.valid.getD offset false = false := by
        unfold invalidateStep
        split
        · rename_i hc
          exact getD_set_self false p.1.valid false (hlen ▸ hoff)
        · rename_i hc
          cases hv : p.1.valid.getD offset false with
          | false => rfl
          | true => exact absurd ⟨hoff, hv⟩ hc
      simp only [Nat.add_zero]
      rw [invalidateOldData_frame ss n (offset + 1) (invalidateStep ss p offset) offset
          (Or.inl (fun k hk => by omega))]
      exact hcleared
    | succ k =>
      have : offset + (k + 1) = (offset + 1) + k := by omega
      rw [this]
      exact ih (offset + 1) (invalidateStep ss p offset) hlen' k
        (Nat.lt_of_succ_lt_succ hk) (by omega)

theorem invalidateOldData_all_valid (ss : Nat) :
    ∀ (size offset : Nat) (p : Segment × Nat), SegWF ss p.1 →
    (∀ k, k < size → offset + k < ss ∧ p.1.valid.getD (offset + k) false = true) →
    (invalidateOldData ss p offset size).1.utilization + size = p.1.utilization ∧
    (invalidateOldData ss p offset size).1.invalidatedBytes = p.1.invalidatedBytes + size ∧
    (invalidateOldData ss p offset size).2 = p.2 + size := by
  intro size
  induction size with
  | zero =>
    intro offset p _ _
    refine ⟨?_, ?_, ?_⟩ <;> simp [invalidateOldData]
  | succ n ih =>
    intro offset p hwf hall
    have h0 := hall 0 (Nat.succ_pos n)
    rw [Nat.add_zero] at h0
    obtain ⟨hb0, hv0⟩ := h0
    have hcond : invalidateStep ss p offset = ({ p.1 with valid := p.1.valid.set offset false, utilization := p.1.utilization - 1, invalidatedBytes := p.1.invalidatedBytes + 1 }, p.2 + 1) := by
      unfold invalidateStep
      rw [if_pos ⟨hb0, hv0⟩]
    have hwf' := invalidateStep_wf ss p offset hwf
    have hall' : ∀ k, k < n → (offset + 1) + k < ss ∧
        (invalidateStep ss p offset).1.valid.getD ((offset + 1) + k) false = true := by
      intro k hk
      have h1 := hall (k + 1) (Nat.succ_lt_succ hk)
      refine ⟨by omega, ?_⟩
      rw [hcond]
      have hne : offset ≠ (offset + 1) + k := by omega
      have heq : offset + (k + 1) = (offset + 1) + k := by omega
      exact (getD_set_ne false p.1.valid false hne).trans (heq ▸ h1.2)
    obtain ⟨hq1, hq2, hq3⟩ := ih (offset + 1) (invalidateStep ss p offset) hwf' hall'
    have hutil_pos : 0 < p.1.utilization := hwf.2 ▸ countTrue_pos p.1.valid hv0
    have hu : (invalidateStep ss p offset).1.utilization = p.1.utilization - 1 := by
      rw [hcond]
    have hv : (invalidateStep ss p offset).1.invalidatedBytes = p.1.invalidatedBytes + 1 := by
      rw [hcond]
    have ht : (invalidateStep ss p offset).2 = p.2 + 1 := by
      rw [hcond]
    unfold invalidateOldData
    refine ⟨?_, ?_, ?_⟩ <;> omega

/-! ### Write lemmas -/

theorem writeStep_basic (ss : Nat) (s : Segment) (i : Nat) :
    (writeStep ss s i).segmentId = s.segmentId ∧
    (writeStep ss s i).invalidatedBytes = s.invalidatedBytes ∧
    (writeStep ss s i).valid.length = s.valid.length ∧
    s.utilization ≤ (writeStep ss s i).utilization := by
  unfold writeStep
  split
  · split
    · exact ⟨rfl, rfl, rfl, Nat.le_refl _⟩
    · exact ⟨rfl, rfl, List.length_set _ _ _, Nat.le_succ _⟩
  · exact ⟨rfl, rfl, rfl, Nat.le_refl _⟩

theorem writeStep_wf (ss : Nat) (s : Segment) (i : Nat) (hwf : SegWF ss s) :
    SegWF ss (writeStep ss s i) := by
  unfold writeStep
  split
  · rename_i hi
    split
    · exact hwf
    · rename_i hv
      have hfalse : s.valid.getD i false = false := by
        cases h : s.valid.getD i false with
        | false => rfl
        | true => exact absurd h hv
      refine ⟨by simpa [List.length_set] using hwf.1, ?_⟩
      show s.utilization + 1 = countTrue (s.valid.set i true)
      rw [countTrue_set_true s.valid (hwf.1 ▸ hi) hfalse, hwf.2]
  · exact hwf

theorem writeStep_frame (ss : Nat) (s : Segment) (i j : Nat) (h : i ≠ j ∨ ss ≤ j) :
    (writeStep ss s i).valid.getD j false = s.valid.getD j false := by
  unfold writeStep
  split
  · rename_i hi
    have hij : i ≠ j := by
      rcases h with h | h
      · exact h
      · exact fun he => absurd (he ▸ hi) (Nat.not_lt.mpr h)
    split
    · rfl
    · exact getD_set_ne false s.valid true hij
  · rfl

theorem writeToSegment_basic (ss : Nat) :
    ∀ (size offset : Nat) (s : Segment),
    (writeToSegment ss s offset size).segmentId = s.segmentId ∧
    (writeToSegment ss s offset size).invalidatedBytes = s.invalidatedBytes ∧
    (writeToSegment ss s offset size).valid.length = s.valid.length ∧
    s.utilization ≤ (writeToSegment ss s offset size).utilization := by
  intro size
  induction size with
  | zero => intro offset s; exact ⟨rfl, rfl, rfl, Nat.le_refl _⟩
  | succ n ih =>
    intro offset s
    have hstep := writeStep_basic ss s offset
    have htail := ih (offset + 1) (writeStep ss s offset)
    unfold writeToSegment
    exact ⟨htail.1.trans hstep.1, htail.2.1.trans hstep.2.1,
      htail.2.2.1.trans hstep.2.2.1, hstep.2.2.2.trans htail.2.2.2⟩

theorem writeToSegment_wf (ss : Nat) :
    ∀ (size offset : Nat) (s : Segment), SegWF ss s →
    SegWF ss (writeToSegment ss s offset size) := by
  intro size
  induction size with
  | zero => intro _ _ hwf; exact hwf
  | succ n ih =>
    intro offset s hwf
    unfold writeToSegment
    exact ih (offset + 1) _ (writeStep_wf ss s offset hwf)

theorem writeToSegment_frame (ss : Nat) :
    ∀ (size offset : Nat) (s : Segment) (j : Nat),
    ((∀ k, k < size → offset + k ≠ j) ∨ ss ≤ j) →
    (writeToSegment ss s offset size).valid.getD j false = s.valid.getD j false := by
  intro size
  induction size with
  | zero => intro _ _ _ _; rfl
  | succ n ih =>
    intro offset s j h
    have hstep : (writeStep ss s offset).valid.getD j false = s.valid.getD j false := by
      apply writeStep_frame
      rcases h with h | h
      · exact Or.inl (by simpa using h 0 (Nat.succ_pos n))
      · exact Or.inr h
    have htail : ((∀ k, k < n → (offset + 1) + k ≠ j) ∨ ss ≤ j) := by
      rcases h with h | h
      · exact Or.inl (fun k hk => by have := h (k + 1) (Nat.succ_lt_succ hk); omega)
      · exact Or.inr h
    unfold writeToSegment
    rw [ih (offset + 1) (writeStep ss s offset) j htail, hstep]

theorem writeToSegment_sets (ss : Nat) :
    ∀ (size offset : Nat) (s : Segment), s.valid.length = ss →
    ∀ k, k < size → offset + k < ss →
    (writeToSegment ss s offset size).valid.getD (offset + k) false = true := by
  intro size
  induction size with
  | zero => intro _ _ _ k hk; omega
  | succ n ih =>
    intro offset s hlen k hk hbound
    have hlen' : (writeStep ss s offset).valid.length = ss :=
      (writeStep_basic ss s offset).2.2.1.trans hlen
    unfold writeToSegment
    cases k with
    | zero =>
      have hoff : offset < ss := by omega
      have hset : (writeStep ss s offset).valid.getD offset false = true := by
        unfold writeStep
        rw [if_pos hoff]
        split
        · rename_i hv; exact hv
        · exact getD_set_self false s.valid true (hlen ▸ hoff)
      simp only [Nat.add_zero]
      rw [writeToSegment_frame ss n (offset + 1) (writeStep ss s offset) offset
          (Or.inl (fun k hk => by omega))]
      exact hset
    | succ k =>
      have heq : offset + (k + 1) = (offset + 1) + k := by omega
      rw [heq]
      exact ih (offset + 1) (writeStep ss s offset) hlen' k
        (Nat.lt_of_succ_lt_succ hk) (by omega)

theorem writeToSegment_all_invalid (ss : Nat) :
    ∀ (size offset : Nat) (s : Segment), SegWF ss s →
    (∀ k, k < size → offset + k < ss ∧ s.valid.getD (offset + k) false = false) →
    (writeToSegment ss s offset size).utilization = s.utilization + size := by
  intro size
  induction size with
  | zero => intro _ _ _ _; rfl
  | succ n ih =>
    intro offset s hwf hall
    have h0 := hall 0 (Nat.succ_pos n)
    rw [Nat.add_zero] at h0
    obtain ⟨hb0, hv0⟩ := h0
    have hcond : writeStep ss s offset = { s with data := s.data.set offset 1, valid := s.valid.set offset true, utilization := s.utilization + 1 } := by
      unfold writeStep
      rw [if_pos hb0, hv0]
      simp
    have hwf' := writeStep_wf ss s offset hwf
    have hall' : ∀ k, k < n → (offset + 1) + k < ss ∧
        (writeStep ss s offset).valid.getD ((offset + 1) + k) false = false := by
      intro k hk
      have h1 := hall (k + 1) (Nat.succ_lt_succ hk)
      refine ⟨by omega, ?_⟩
      rw [hcond]
      have hne : offset ≠ (offset + 1) + k := by omega
      have heq : offset + (k + 1) = (offset + 1) + k := by omega
      exact (getD_set_ne false s.valid true hne).trans (heq ▸ h1.2)
    have hq := ih (offset + 1) (writeStep ss s offset) hwf' hall'
    have hu : (writeStep ss s offset).utilization = s.utilization + 1 := by
      rw [hcond]
    unfold writeToSegment
    omega

/-! ### First-fit allocator characterization -/

theorem findSegAux_none (ss size : Nat) :
    ∀ (segs : List Segment) (i0 : Nat),
    findSegAux ss size i0 segs = none ↔
      ∀ k, k < segs.length → ¬ ((segs.getD k emptySegment).utilization + size ≤ ss) := by
  intro segs
  induction segs with
  | nil =>
    intro i0
    constructor
    · intro _ k hk; exact absurd hk (Nat.not_lt_zero k)
    · intro _; rfl
  | cons s rest ih =>
    intro i0
    unfold findSegAux
    split
    · rename_i hs
      constructor
      · intro h; cases h
      · intro h; exact absurd hs (h 0 (Nat.succ_pos _))
    · rename_i hs
      rw [ih (i0 + 1)]
      constructor
      · intro h k hk
        cases k with
        | zero => exact hs
        | succ k => exact h k (Nat.lt_of_succ_lt_succ hk)
      · intro h k hk
        exact h (k + 1) (Nat.succ_lt_succ hk)

theorem findSegAux_some (ss size : Nat) :
    ∀ (segs : List Segment) (i0 j : Nat),
    findSegAux ss size i0 segs = some j ↔
      ∃ k, k < segs.length ∧ j = i0 + k ∧
        (segs.getD k emptySegment).utilization + size ≤ ss ∧
        ∀ k', k' < k → ¬ ((segs.getD k' emptySegment).utilization + size ≤ ss) := by
  intro segs
  induction segs with
  | nil =>
    intro i0 j
    constructor
    · intro h; cases h
    · rintro ⟨k, hk, _⟩; exact absurd hk (Nat.not_lt_zero k)
  | cons s rest ih =>
    intro i0 j
    unfold findSegAux
    split
    · rename_i hs
      constructor
      · intro h
        injection h with h
        exact ⟨0, Nat.succ_pos _, by omega, hs,
          fun k' hk' => absurd hk' (Nat.not_lt_zero k')⟩
      · rintro ⟨k, hk, hj, hcond, hmin⟩
        cases k with
        | zero => exact congrArg some (by omega)
        | succ k => exact absurd hs (hmin 0 (Nat.succ_pos k))
    · rename_i hs
      rw [ih (i0 + 1) j]
      constructor
      · rintro ⟨k, hk, hj, hcond, hmin⟩
        refine ⟨k + 1, Nat.succ_lt_succ hk, by omega, hcond, ?_⟩
        intro k' hk'
        cases k' with
        | zero => exact hs
        | succ k' => exact hmin k' (Nat.lt_of_succ_lt_succ hk')
      · rintro ⟨k, hk, hj, hcond, hmin⟩
        cases k with
        | zero => exact absurd hcond hs
        | succ k =>
          exact ⟨k, Nat.lt_of_succ_lt_succ hk, by omega, hcond,
            fun k' hk' => hmin (k' + 1) (Nat.succ_lt_succ hk')⟩

/-! ### Victim-selection characterization -/

theorem selectVictimAux_spec :
    ∀ (segs : List Segment) (i0 : Nat) (best : Option Nat) (maxInv : Nat),
    (selectVictimAux i0 best maxInv segs = best ∧
      ∀ k, k < segs.length → 0 < (segs.getD k emptySegment).utilization →
        (segs.getD k emptySegment).invalidatedBytes ≤ maxInv) ∨
    (∃ k, k < segs.length ∧ selectVictimAux i0 best maxInv segs = some (i0 + k) ∧
      0 < (segs.getD k emptySegment).utilization ∧
      maxInv < (segs.getD k emptySegment).invalidatedBytes ∧
      (∀ j, j < segs.length → 0 < (segs.getD j emptySegment).utilization →
        (segs.getD j emptySegment).invalidatedBytes ≤
          (segs.getD k emptySegment).invalidatedBytes) ∧
      (∀ j, j < k → 0 < (segs.getD j emptySegment).utilization →
        (segs.getD j emptySegment).invalidatedBytes <
          (segs.getD k emptySegment).invalidatedBytes)) := by
  intro segs
  induction segs with
  | nil =>
    intro i0 best maxInv
    exact Or.inl ⟨rfl, fun k hk => absurd hk (Nat.not_lt_zero k)⟩
  | cons s rest ih =>
    intro i0 best maxInv
    unfold selectVictimAux
    split
    · rename_i hc
      rcases ih (i0 + 1) (some i0) s.invalidatedBytes with
        ⟨hR, hbound⟩ | ⟨k, hk, hR, hut, hgt, hall, hstrict⟩
      · right
        refine ⟨0, Nat.succ_pos _, hR.trans (congrArg some (by omega)), hc.2, hc.1, ?_, ?_⟩
        · intro j hj hutj
          cases j with
          | zero => exact Nat.le_refl _
          | succ j => exact hbound j (Nat.lt_of_succ_lt_succ hj) hutj
        · intro j hj; exact absurd hj (Nat.not_lt_zero j)
      · right
        refine ⟨k + 1, Nat.succ_lt_succ hk, hR.trans (congrArg some (by omega)),
          hut, Nat.lt_trans hc.1 hgt, ?_, ?_⟩
        · intro j hj hutj
          cases j with
          | zero => exact Nat.le_of_lt hgt
          | succ j => exact hall j (Nat.lt_of_succ_lt_succ hj) hutj
        · intro j hj hutj
          cases j with
          | zero => exact hgt
          | succ j => exact hstrict j (Nat.lt_of_succ_lt_succ hj) hutj
    · rename_i hc
      have hs : 0 < s.utilization → s.invalidatedBytes ≤ maxInv :=
        fun hu => Nat.le_of_not_lt (fun hlt => hc ⟨hlt, hu⟩)
      rcases ih (i0 + 1) best maxInv with
        ⟨hR, hbound⟩ | ⟨k, hk, hR, hut, hgt, hall, hstrict⟩
      · left
        refine ⟨hR, ?_⟩
        intro k hk hutk
        cases k with
        | zero => exact hs hutk
        | succ k => exact hbound k (Nat.lt_of_succ_lt_succ hk) hutk
      · right
        refine ⟨k + 1, Nat.succ_lt_succ hk, hR.trans (congrArg some (by omega)),
          hut, hgt, ?_, ?_⟩
        · intro j hj hutj
          cases j with
          | zero => exact Nat.le_of_lt (Nat.lt_of_le_of_lt (hs hutj) hgt)
          | succ j => exact hall j (Nat.lt_of_succ_lt_succ hj) hutj
        · intro j hj hutj
          cases j with
          | zero => exact Nat.lt_of_le_of_lt (hs hutj) hgt
          | succ j => exact hstrict j (Nat.lt_of_succ_lt_succ hj) hutj

theorem selectVictim_some (segs : List Segment) (v : Nat)
    (h : selectVictim segs = some v) :
    v < segs.length ∧ 0 < (segs.getD v emptySegment).utilization ∧
    0 < (segs.getD v emptySegment).invalidatedBytes ∧
    (∀ j, j < segs.length → 0 < (segs.getD j emptySegment).utilization →
      (segs.getD j emptySegment).invalidatedBytes ≤
        (segs.getD v emptySegment).invalidatedBytes) ∧
    (∀ j, j < v → 0 < (segs.getD j emptySegment).utilization →
      (segs.getD j emptySegment).invalidatedBytes <
        (segs.getD v emptySegment).invalidatedBytes) := by
  rcases selectVictimAux_spec segs 0 none 0 with
    ⟨hR, _⟩ | ⟨k, hk, hR, hut, hgt, hall, hstrict⟩
  · rw [selectVictim] at h
    rw [h] at hR
    cases hR
  · rw [selectVictim] at h
    rw [h] at hR
    injection hR with hR
    have hvk : v = k := by omega
    subst hvk
    exact ⟨hk, hut, by omega, hall, hstrict⟩

theorem selectVictim_none (segs : List Segment)
    (h : ∀ j, j < segs.length → 0 < (segs.getD j emptySegment).utilization →
      (segs.getD j emptySegment).invalidatedBytes = 0) :
    selectVictim segs = none := by
  rcases selectVictimAux_spec segs 0 none 0 with
    ⟨hR, _⟩ | ⟨k, hk, hR, hut, hgt, _, _⟩
  · exact hR
  · have := h k hk hut
    omega

/-! ### Compaction-loop lemmas -/

theorem getD_set_cases {α : Type _} (d : α) (l : List α) (i k : Nat) (b : α) :
    (l.set i b).getD k d = if k = i ∧ i < l.length then b else l.getD k d := by
  by_cases hk : k = i
  · subst hk
    by_cases hl : k < l.length
    · rw [if_pos ⟨rfl, hl⟩, getD_set_self d l b hl]
    · rw [if_neg (fun h => hl h.2), List.set_eq_of_length_le (Nat.le_of_not_lt hl)]
  · rw [if_neg (fun h => hk h.1), getD_set_ne d l b (fun he => hk he.symm)]

theorem gcCopyStep_counters (ss vIdx dIdx : Nat) (m : SegmentManager) (i : Nat) :
    (gcCopyStep ss vIdx dIdx m i).totalWrites = m.totalWrites ∧
    (gcCopyStep ss vIdx dIdx m i).totalInvalidated = m.totalInvalidated ∧
    (gcCopyStep ss vIdx dIdx m i).gcCount = m.gcCount ∧
    (gcCopyStep ss vIdx dIdx m i).totalGcCost = m.totalGcCost ∧
    (gcCopyStep ss vIdx dIdx m i).segments.length = m.segments.length := by
  simp only [gcCopyStep]
  split
  · exact ⟨rfl, rfl, rfl, rfl, by simp [List.length_set]⟩
  · exact ⟨rfl, rfl, rfl, rfl, rfl⟩

theorem gcCopyStep_fields (ss vIdx dIdx : Nat) (m : SegmentManager) (i k : Nat) :
    ((gcCopyStep ss vIdx dIdx m i).segments.getD k emptySegment).invalidatedBytes =
      (m.segments.getD k emptySegment).invalidatedBytes ∧
    ((gcCopyStep ss vIdx dIdx m i).segments.getD k emptySegment).valid.length =
      (m.segments.getD k emptySegment).valid.length := by
  have hW := writeToSegment_basic ss 1 i (m.segments.getD dIdx emptySegment)
  simp only [gcCopyStep]
  split
  · rw [getD_set_cases]
    split
    · rename_i hkv
      rw [getD_set_cases]
      constructor
      · split
        · rename_i hvd
          rw [hW.2.1, hkv.1, hvd.1]
        · rw [hkv.1]
      · rw [List.length_set]
        split
        · rename_i hvd
          rw [hW.2.2.1, hkv.1, hvd.1]
        · rw [hkv.1]
    · rw [getD_set_cases]
      split
      · rename_i hkd
        rw [hkd.1]
        exact ⟨hW.2.1, hW.2.2.1⟩
      · exact ⟨rfl, rfl⟩
  · exact ⟨rfl, rfl⟩

theorem getD_set_false (l : List Bool) (i : Nat) :
    (l.set i false).getD i false = false := by
  by_cases h : i < l.length
  · exact getD_set_self false l false h
  · rw [List.set_eq_of_length_le (Nat.le_of_not_lt h)]
    exact List.getD_eq_default l false (Nat.le_of_not_lt h)

theorem gcCopyStep_victim_lt (ss vIdx dIdx : Nat) (m : SegmentManager) (i : Nat)
    (hv : (m.segments.getD vIdx emptySegment).valid.getD i false = true) :
    vIdx < m.segments.length := by
  by_contra hge
  rw [List.getD_eq_default _ _ (Nat.le_of_not_lt hge)] at hv
  exact Bool.false_ne_true hv

theorem gcCopyStep_victim_clears (ss vIdx dIdx : Nat) (m : SegmentManager) (i : Nat) :
    ((gcCopyStep ss vIdx dIdx m i).segments.getD vIdx emptySegment).valid.getD i false =
      false := by
  simp only [gcCopyStep]
  split
  · rename_i hv
    have hvlt := gcCopyStep_victim_lt ss vIdx dIdx m i hv
    rw [getD_set_cases, if_pos ⟨rfl, by simpa [List.length_set] using hvlt⟩]
    exact getD_set_false _ i
  · rename_i hv
    cases h : (m.segments.getD vIdx emptySegment).valid.getD i false with
    | false => rfl
    | true => exact absurd h hv

theorem gcCopyStep_victim_frame (ss vIdx dIdx : Nat) (m : SegmentManager) (i j : Nat)
    (hne : i ≠ j) :
    ((gcCopyStep ss vIdx dIdx m i).segments.getD vIdx emptySegment).valid.getD j false =
      (m.segments.getD vIdx emptySegment).valid.getD j false := by
  simp only [gcCopyStep]
  split
  · rename_i hv
    have hvlt := gcCopyStep_victim_lt ss vIdx dIdx m i hv
    rw [getD_set_cases, if_pos ⟨rfl, by simpa [List.length_set] using hvlt⟩]
    rw [getD_set_ne false _ false hne]
    rw [getD_set_cases]
    split
    · rename_i hvd
      rw [writeToSegment_frame ss 1 i (m.segments.getD dIdx emptySegment) j
        (Or.inl (fun k hk => by omega))]
      rw [hvd.1]
    · rfl
  · rfl

theorem gcCopyStep_frame_other (ss vIdx dIdx : Nat) (m : SegmentManager) (i k : Nat)
    (h1 : k ≠ vIdx) (h2 : k ≠ dIdx) :
    (gcCopyStep ss vIdx dIdx m i).segments.getD k emptySegment =
      m.segments.getD k emptySegment := by
  simp only [gcCopyStep]
  split
  · rw [getD_set_cases, if_neg (fun hc => h1 hc.1),
      getD_set_cases, if_neg (fun hc => h2 hc.1)]
  · rfl

theorem gcCopyStep_dest_wf (ss vIdx dIdx : Nat) (m : SegmentManager) (i : Nat)
    (hvd : vIdx ≠ dIdx) (hwf : SegWF ss (m.segments.getD dIdx emptySegment)) :
    SegWF ss ((gcCopyStep ss vIdx dIdx m i).segments.getD dIdx emptySegment) := by
  simp only [gcCopyStep]
  split
  · rw [getD_set_cases, if_neg (fun hc => hvd hc.1.symm), getD_set_cases]
    split
    · exact writeToSegment_wf ss 1 i _ hwf
    · exact hwf
  · exact hwf

theorem gcCopyAux_counters (ss vIdx dIdx : Nat) :
    ∀ (n i : Nat) (m : SegmentManager),
    (gcCopyAux ss vIdx dIdx m i n).totalWrites = m.totalWrites ∧
    (gcCopyAux ss vIdx dIdx m i n).totalInvalidated = m.totalInvalidated ∧
    (gcCopyAux ss vIdx dIdx m i n).gcCount = m.gcCount ∧
    (gcCopyAux ss vIdx dIdx m i n).totalGcCost = m.totalGcCost ∧
    (gcCopyAux ss vIdx dIdx m i n).segments.length = m.segments.length := by
  intro n
  induction n with
  | zero => intro i m; exact ⟨rfl, rfl, rfl, rfl, rfl⟩
  | succ n ih =>
    intro i m
    have hstep := gcCopyStep_counters ss vIdx dIdx m i
    have htail := ih (i + 1) (gcCopyStep ss vIdx dIdx m i)
    unfold gcCopyAux
    exact ⟨htail.1.trans hstep.1, htail.2.1.trans hstep.2.1, htail.2.2.1.trans hstep.2.2.1,
      htail.2.2.2.1.trans hstep.2.2.2.1, htail.2.2.2.2.trans hstep.2.2.2.2⟩

theorem gcCopyAux_fields (ss vIdx dIdx : Nat) :
    ∀ (n i : Nat) (m : SegmentManager) (k : Nat),
    ((gcCopyAux ss vIdx dIdx m i n).segments.getD k emptySegment).invalidatedBytes =
      (m.segments.getD k emptySegment).invalidatedBytes ∧
    ((gcCopyAux ss vIdx dIdx m i n).segments.getD k emptySegment).valid.length =
      (m.segments.getD k emptySegment).valid.length := by
  intro n
  induction n with
  | zero => intro i m k; exact ⟨rfl, rfl⟩
  | succ n ih =>
    intro i m k
    have hstep := gcCopyStep_fields ss vIdx dIdx m i k
    have htail := ih (i + 1) (gcCopyStep ss vIdx dIdx m i) k
    unfold gcCopyAux
    exact ⟨htail.1.trans hstep.1, htail.2.trans hstep.2⟩

theorem gcCopyAux_frame_other (ss vIdx dIdx : Nat) :
    ∀ (n i : Nat) (m : SegmentManager) (k : Nat), k ≠ vIdx → k ≠ dIdx →
    (gcCopyAux ss vIdx dIdx m i n).segments.getD k emptySegment =
      m.segments.getD k emptySegment := by
  intro n
  induction n with
  | zero => intro i m k _ _; rfl
  | succ n ih =>
    intro i m k h1 h2
    unfold gcCopyAux
    rw [ih (i + 1) (gcCopyStep ss vIdx dIdx m i) k h1 h2,
      gcCopyStep_frame_other ss vIdx dIdx m i k h1 h2]

theorem gcCopyAux_dest_wf (ss vIdx dIdx : Nat) (hvd : vIdx ≠ dIdx) :
    ∀ (n i : Nat) (m : SegmentManager),
    SegWF ss (m.segments.getD dIdx emptySegment) →
    SegWF ss ((gcCopyAux ss vIdx dIdx m i n).segments.getD dIdx emptySegment) := by
  intro n
  induction n with
  | zero => intro i m hwf; exact hwf
  | succ n ih =>
    intro i m hwf
    unfold gcCopyAux
    exact ih (i + 1) _ (gcCopyStep_dest_wf ss vIdx dIdx m i hvd hwf)

theorem gcCopyAux_victim_valid (ss vIdx dIdx : Nat) :
    ∀ (n i : Nat) (m : SegmentManager),
    (∀ j, j < i →
      ((gcCopyAux ss vIdx dIdx m i n).segments.getD vIdx emptySegment).valid.getD j false =
        (m.segments.getD vIdx emptySegment).valid.getD j false) ∧
    (∀ j, i ≤ j → j < i + n →
      ((gcCopyAux ss vIdx dIdx m i n).segments.getD vIdx emptySegment).valid.getD j false =
        false) := by
  intro n
  induction n with
  | zero =>
    intro i m
    exact ⟨fun j _ => rfl, fun j h1 h2 => by omega⟩
  | succ n ih =>
    intro i m
    obtain ⟨ihf, ihc⟩ := ih (i + 1) (gcCopyStep ss vIdx dIdx m i)
    constructor
    · intro j hj
      unfold gcCopyAux
      rw [ihf j (by omega), gcCopyStep_victim_frame ss vIdx dIdx m i j (by omega)]
    · intro j h1 h2
      unfold gcCopyAux
      by_cases hji : j = i
      · subst hji
        rw [ihf j (by omega)]
        exact gcCopyStep_victim_clears ss vIdx dIdx m j
      · exact ihc j (by omega) (by omega)

/-! ### Garbage-collection lemmas -/

theorem garbageCollect_noVictim (ns ss : Nat) (m : SegmentManager)
    (hv : selectVictim m.segments = none) :
    garbageCollect ns ss m = (m, GcOutcome.NoVictim) := by
  unfold garbageCollect
  rw [hv]

theorem garbageCollect_noDest (ns ss : Nat) (m : SegmentManager) (v : Nat)
    (hv : selectVictim m.segments = some v) (hd : findSegmentForWrite ss m 0 = none) :
    garbageCollect ns ss m = (m, GcOutcome.NoDestination) := by
  unfold garbageCollect
  rw [hv, hd]

theorem garbageCollect_reclaim (ns ss : Nat) (m : SegmentManager) (v d : Nat)
    (hv : selectVictim m.segments = some v) (hd : findSegmentForWrite ss m 0 = some d) :
    (garbageCollect ns ss m).1.totalWrites = m.totalWrites ∧
    (garbageCollect ns ss m).1.totalInvalidated = m.totalInvalidated ∧
    (garbageCollect ns ss m).1.gcCount = m.gcCount + 1 ∧
    (garbageCollect ns ss m).1.segments.length = m.segments.length ∧
    ((garbageCollect ns ss m).1.segments.getD v emptySegment).invalidatedBytes = 0 ∧
    (∀ k, k ≠ v →
      ((garbageCollect ns ss m).1.segments.getD k emptySegment).invalidatedBytes =
        (m.segments.getD k emptySegment).invalidatedBytes) ∧
    (Rat.divInt m.totalWrites (ns * ss) < 1 →
      (garbageCollect ns ss m).2 =
        GcOutcome.VictimReclaimed v (some (2 / (1 - Rat.divInt m.totalWrites (ns * ss)))) ∧
      (garbageCollect ns ss m).1.totalGcCost =
        m.totalGcCost + 2 / (1 - Rat.divInt m.totalWrites (ns * ss))) ∧
    (¬ Rat.divInt m.totalWrites (ns * ss) < 1 →
      (garbageCollect ns ss m).2 = GcOutcome.VictimReclaimed v none ∧
      (garbageCollect ns ss m).1.totalGcCost = m.totalGcCost) := by
  have hm1 := gcCopyAux_counters ss v d ss 0 m
  have hfields := gcCopyAux_fields ss v d ss 0 m
  have hvlt : v < m.segments.length := (selectVictim_some m.segments v hv).1
  have htw : (gcCopy ss v d m).totalWrites = m.totalWrites := hm1.1
  have hlen : (gcCopy ss v d m).segments.length = m.segments.length := hm1.2.2.2.2
  have hti : (gcCopy ss v d m).totalInvalidated = m.totalInvalidated := hm1.2.1
  have hgc : (gcCopy ss v d m).gcCount = m.gcCount := hm1.2.2.1
  have hcost : (gcCopy ss v d m).totalGcCost = m.totalGcCost := hm1.2.2.2.1
  simp only [garbageCollect, hv, hd, htw]
  split
  · rename_i hfr
    refine ⟨rfl, hti, ?_, ?_, ?_, ?_, fun _ => ⟨rfl, ?_⟩, fun h => absurd hfr h⟩
    · rw [hgc]
    · rw [List.length_set]
      exact hlen
    · rw [getD_set_cases, if_pos ⟨rfl, hlen ▸ hvlt⟩]
    · intro k hk
      rw [getD_set_cases, if_neg (fun hc => hk hc.1)]
      exact (hfields k).1
    · rw [hcost]
  · rename_i hfr
    refine ⟨rfl, hti, ?_, ?_, ?_, ?_, fun h => absurd h hfr, fun _ => ⟨rfl, hcost⟩⟩
    · rw [hgc]
    · rw [List.length_set]
      exact hlen
    · rw [getD_set_cases, if_pos ⟨rfl, hlen ▸ hvlt⟩]
    · intro k hk
      rw [getD_set_cases, if_neg (fun hc => hk hc.1)]
      exact (hfields k).1

theorem gcCopy_frame_other (ss vIdx dIdx : Nat) (m : SegmentManager) (k : Nat)
    (h1 : k ≠ vIdx) (h2 : k ≠ dIdx) :
    (gcCopy ss vIdx dIdx m).segments.getD k emptySegment =
      m.segments.getD k emptySegment :=
  gcCopyAux_frame_other ss vIdx dIdx ss 0 m k h1 h2

theorem gcCopy_dest_wf (ss vIdx dIdx : Nat) (m : SegmentManager) (hvd : vIdx ≠ dIdx)
    (hwf : SegWF ss (m.segments.getD dIdx emptySegment)) :
    SegWF ss ((gcCopy ss vIdx dIdx m).segments.getD dIdx emptySegment) :=
  gcCopyAux_dest_wf ss vIdx dIdx hvd ss 0 m hwf

theorem gcCopy_victim_clears (ss vIdx dIdx : Nat) (m : SegmentManager) :
    ∀ j, j < ss →
    ((gcCopy ss vIdx dIdx m).segments.getD vIdx emptySegment).valid.getD j false = false :=
  fun j hj =>
    (gcCopyAux_victim_valid ss vIdx dIdx ss 0 m).2 j (Nat.zero_le j) (by omega)

theorem findSegmentForWrite_lt (ss size : Nat) (m : SegmentManager) (d : Nat)
    (hd : findSegmentForWrite ss m size = some d) : d < m.segments.length := by
  obtain ⟨k, hk, hdk, _, _⟩ := (findSegAux_some ss size m.segments 0 d).mp hd
  omega

theorem garbageCollect_segments (ns ss : Nat) (m : SegmentManager) (v d : Nat)
    (hv : selectVictim m.segments = some v) (hd : findSegmentForWrite ss m 0 = some d) :
    (garbageCollect ns ss m).1.segments =
      (gcCopy ss v d m).segments.set v
        { (gcCopy ss v d m).segments.getD v emptySegment with utilization := 0, invalidatedBytes := 0, data := List.replicate ss 0 } := by
  simp only [garbageCollect, hv, hd]
  split
  · rfl
  · rfl

theorem garbageCollect_wf (ns ss : Nat) (m : SegmentManager) (hwf : WF ss m) :
    WF ss (garbageCollect ns ss m).1 := by
  cases hv : selectVictim m.segments with
  | none =>
    rw [garbageCollect_noVictim ns ss m hv]
    exact hwf
  | some v =>
    cases hd : findSegmentForWrite ss m 0 with
    | none =>
      rw [garbageCollect_noDest ns ss m v hv hd]
      exact hwf
    | some d =>
      have hvlt : v < m.segments.length := (selectVictim_some m.segments v hv).1
      have hdlt : d < m.segments.length := findSegmentForWrite_lt ss 0 m d hd
      have hlen : (gcCopy ss v d m).segments.length = m.segments.length :=
        (gcCopyAux_counters ss v d ss 0 m).2.2.2.2
      have hseg := garbageCollect_segments ns ss m v d hv hd
      intro k hk
      rw [hseg] at hk
      rw [List.length_set, hlen] at hk
      rw [hseg, getD_set_cases]
      split
      · rename_i hkv
        have hxlen : ((gcCopy ss v d m).segments.getD v emptySegment).valid.length = ss :=
          ((gcCopyAux_fields ss v d ss 0 m v).2).trans (hwf v hvlt).1
        refine ⟨hxlen, ?_⟩
        refine (countTrue_eq_zero _ ?_).symm
        intro q hq
        exact gcCopy_victim_clears ss v d m q (hxlen ▸ hq)
      · rename_i hkv
        have hknev : k ≠ v := fun he => hkv ⟨he, hlen ▸ hvlt⟩
        by_cases hkd : k = d
        · subst hkd
          have hvd : v ≠ k := fun he => hknev he.symm
          exact gcCopy_dest_wf ss v k m hvd (hwf k hk)
        · rw [gcCopy_frame_other ss v d m k hknev hkd]
          exact hwf k hk

theorem garbageCollect_outcome (ns ss : Nat) (m : SegmentManager) (v d : Nat)
    (hv : selectVictim m.segments = some v) (hd : findSegmentForWrite ss m 0 = some d) :
    ∃ c, (garbageCollect ns ss m).2 = GcOutcome.VictimReclaimed v c := by
  simp only [garbageCollect, hv, hd]
  split
  · exact ⟨_, rfl⟩
  · exact ⟨none, rfl⟩

theorem garbageCollect_tw_ti (ns ss : Nat) (m : SegmentManager) :
    (garbageCollect ns ss m).1.totalWrites = m.totalWrites ∧
    (garbageCollect ns ss m).1.totalInvalidated = m.totalInvalidated ∧
    m.gcCount ≤ (garbageCollect ns ss m).1.gcCount := by
  cases hv : selectVictim m.segments with
  | none =>
    rw [garbageCollect_noVictim ns ss m hv]
    exact ⟨rfl, rfl, Nat.le_refl _⟩
  | some v =>
    cases hd : findSegmentForWrite ss m 0 with
    | none =>
      rw [garbageCollect_noDest ns ss m v hv hd]
      exact ⟨rfl, rfl, Nat.le_refl _⟩
    | some d =>
      have h := garbageCollect_reclaim ns ss m v d hv hd
      exact ⟨h.1, h.2.1, by omega⟩

theorem garbageCollect_inv (ns ss : Nat) (m : SegmentManager) (k : Nat) :
    ((garbageCollect ns ss m).1.segments.getD k emptySegment).invalidatedBytes =
      (m.segments.getD k emptySegment).invalidatedBytes ∨
    (((garbageCollect ns ss m).1.segments.getD k emptySegment).invalidatedBytes = 0 ∧
      ∃ c, (garbageCollect ns ss m).2 = GcOutcome.VictimReclaimed k c) := by
  cases hv : selectVictim m.segments with
  | none =>
    rw [garbageCollect_noVictim ns ss m hv]
    exact Or.inl rfl
  | some v =>
    cases hd : findSegmentForWrite ss m 0 with
    | none =>
      rw [garbageCollect_noDest ns ss m v hv hd]
      exact Or.inl rfl
    | some d =>
      have h := garbageCollect_reclaim ns ss m v d hv hd
      by_cases hkv : k = v
      · subst hkv
        exact Or.inr ⟨h.2.2.2.2.1, garbageCollect_outcome ns ss m k d hv hd⟩
      · exact Or.inl (h.2.2.2.2.2.1 k hkv)

theorem garbageCollect_reclaim_inv_zero (ns ss : Nat) (m : SegmentManager) (v : Nat)
    (c : Option ℚ) (h : (garbageCollect ns ss m).2 = GcOutcome.VictimReclaimed v c) :
    ((garbageCollect ns ss m).1.segments.getD v emptySegment).invalidatedBytes = 0 := by
  cases hv : selectVictim m.segments with
  | none =>
    rw [garbageCollect_noVictim ns ss m hv] at h
    cases h
  | some v' =>
    cases hd : findSegmentForWrite ss m 0 with
    | none =>
      rw [garbageCollect_noDest ns ss m v' hv hd] at h
      cases h
    | some d =>
      obtain ⟨c', ho⟩ := garbageCollect_outcome ns ss m v' d hv hd
      rw [h] at ho
      injection ho with hv' _
      subst hv'
      exact (garbageCollect_reclaim ns ss m v d hv hd).2.2.2.2.1

/-! ### Write-request orchestration lemmas -/

theorem performWrite_facts (ss : Nat) (m : SegmentManager) (idx offset size : Nat) :
    (performWrite ss m idx offset size).totalWrites = m.totalWrites + 1 ∧
    m.totalInvalidated ≤ (performWrite ss m idx offset size).totalInvalidated ∧
    (performWrite ss m idx offset size).gcCount = m.gcCount ∧
    (performWrite ss m idx offset size).totalGcCost = m.totalGcCost ∧
    (performWrite ss m idx offset size).segments.length = m.segments.length ∧
    (∀ k, (m.segments.getD k emptySegment).invalidatedBytes ≤
      ((performWrite ss m idx offset size).segments.getD k emptySegment).invalidatedBytes) := by
  have hinv := invalidateOldData_basic ss size offset
    (m.segments.getD idx emptySegment, m.totalInvalidated)
  simp only [performWrite]
  refine ⟨trivial, hinv.2.2.2.2, trivial, trivial, List.length_set _ _ _, ?_⟩
  intro k
  rw [getD_set_cases]
  split
  · rename_i hki
    have hw := writeToSegment_basic ss size offset
      (invalidateOldData ss (m.segments.getD idx emptySegment, m.totalInvalidated)
        offset size).1
    rw [hw.2.1, hki.1]
    exact hinv.2.2.2.1
  · exact Nat.le_refl _

theorem performWrite_wf (ss : Nat) (m : SegmentManager) (idx offset size : Nat)
    (hwf : WF ss m) : WF ss (performWrite ss m idx offset size) := by
  simp only [performWrite]
  intro k hk
  rw [List.length_set] at hk
  rw [getD_set_cases]
  split
  · rename_i hki
    exact writeToSegment_wf ss size offset _
      (invalidateOldData_wf ss size offset _ (hwf idx hki.2))
  · exact hwf k hk

theorem processWriteRequest_accept (ns ss : Nat) (m : SegmentManager) (r : WriteRequest)
    (idx : Nat) (h : findSegmentForWrite ss m r.size = some idx) :
    processWriteRequest ns ss m r =
      (performWrite ss m idx r.offset r.size, WriteOutcome.Accepted) := by
  simp only [processWriteRequest, h]

theorem processWriteRequest_gcAccept (ns ss : Nat) (m : SegmentManager) (r : WriteRequest)
    (idx : Nat) (h1 : findSegmentForWrite ss m r.size = none)
    (h2 : findSegmentForWrite ss (garbageCollect ns ss m).1 r.size = some idx) :
    processWriteRequest ns ss m r =
      (performWrite ss (garbageCollect ns ss m).1 idx r.offset r.size,
        WriteOutcome.Accepted) := by
  simp only [processWriteRequest, h1, h2]

theorem processWriteRequest_fail (ns ss : Nat) (m : SegmentManager) (r : WriteRequest)
    (h1 : findSegmentForWrite ss m r.size = none)
    (h2 : findSegmentForWrite ss (garbageCollect ns ss m).1 r.size = none) :
    processWriteRequest ns ss m r =
      ((garbageCollect ns ss m).1, WriteOutcome.AllocationFailure) := by
  simp only [processWriteRequest, h1, h2]

theorem processWriteRequest_wf (ns ss : Nat) (m : SegmentManager) (r : WriteRequest)
    (hwf : WF ss m) : WF ss (processWriteRequest ns ss m r).1 := by
  cases h1 : findSegmentForWrite ss m r.size with
  | some idx =>
    rw [processWriteRequest_accept ns ss m r idx h1]
    exact performWrite_wf ss m idx r.offset r.size hwf
  | none =>
    have hgcwf := garbageCollect_wf ns ss m hwf
    cases h2 : findSegmentForWrite ss (garbageCollect ns ss m).1 r.size with
    | some idx =>
      rw [processWriteRequest_gcAccept ns ss m r idx h1 h2]
      exact performWrite_wf ss _ idx r.offset r.size hgcwf
    | none =>
      rw [processWriteRequest_fail ns ss m r h1 h2]
      exact hgcwf

theorem processWriteRequest_counters (ns ss : Nat) (m : SegmentManager) (r : WriteRequest) :
    m.totalWrites ≤ (processWriteRequest ns ss m r).1.totalWrites ∧
    m.totalInvalidated ≤ (processWriteRequest ns ss m r).1.totalInvalidated ∧
    m.gcCount ≤ (processWriteRequest ns ss m r).1.gcCount ∧
    (∀ k, (m.segments.getD k emptySegment).invalidatedBytes ≤
        ((processWriteRequest ns ss m r).1.segments.getD k emptySegment).invalidatedBytes ∨
      ∃ c, (garbageCollect ns ss m).2 = GcOutcome.VictimReclaimed k c) := by
  cases h1 : findSegmentForWrite ss m r.size with
  | some idx =>
    rw [processWriteRequest_accept ns ss m r idx h1]
    dsimp only
    have h := performWrite_facts ss m idx r.offset r.size
    exact ⟨by omega, h.2.1, by omega, fun k => Or.inl (h.2.2.2.2.2 k)⟩
  | none =>
    have hgc := garbageCollect_tw_ti ns ss m
    cases h2 : findSegmentForWrite ss (garbageCollect ns ss m).1 r.size with
    | some idx =>
      rw [processWriteRequest_gcAccept ns ss m r idx h1 h2]
      dsimp only
      have h := performWrite_facts ss (garbageCollect ns ss m).1 idx r.offset r.size
      refine ⟨by omega, by omega, by omega, ?_⟩
      intro k
      rcases garbageCollect_inv ns ss m k with hk | ⟨_, hc⟩
      · left
        have := h.2.2.2.2.2 k
        omega
      · exact Or.inr hc
    | none =>
      rw [processWriteRequest_fail ns ss m r h1 h2]
      dsimp only
      refine ⟨by omega, by omega, by omega, ?_⟩
      intro k
      rcases garbageCollect_inv ns ss m k with hk | ⟨_, hc⟩
      · exact Or.inl (by omega)
      · exact Or.inr hc

/-! ### Reachability invariant -/

theorem initSegmentManager_wf (ns ss : Nat) : WF ss (initSegmentManager ns ss) := by
  intro k hk
  have hgd : (initSegmentManager ns ss).segments.getD k emptySegment = initSegment ss k := by
    rw [List.getD_eq_getElem _ _ hk]
    simp [initSegmentManager]
  rw [hgd]
  exact ⟨List.length_replicate ss false, (countTrue_replicate ss).symm⟩

theorem reachable_wf (ns ss : Nat) (m : SegmentManager) (h : Reachable ns ss m) :
    WF ss m := by
  induction h with
  | init => exact initSegmentManager_wf ns ss
  | step hr hs ih =>
    cases hs with
    | write r => exact processWriteRequest_wf ns ss _ r ih
    | gc => exact garbageCollect_wf ns ss _ ih

/-! ### Claim theorems -/

/-- C1: in every reachable state of the store, every segment satisfies
`0 ≤ utilization ≤ capacity` and `utilization` equals the number of true
validity bits; all operations, including GC compaction and victim reset,
preserve this. -/
theorem c1_utilization_invariant (ns ss : Nat) (m : SegmentManager)
    (h : Reachable ns ss m) :
    ∀ s ∈ m.segments, s.utilization = countTrue s.valid ∧ s.utilization ≤ ss := by
  have hwf := reachable_wf ns ss m h
  intro s hs
  obtain ⟨i, hi, rfl⟩ := List.mem_iff_getElem.mp hs
  have hseg := hwf i hi
  rw [List.getD_eq_getElem _ _ hi] at hseg
  obtain ⟨hlen, hcnt⟩ := hseg
  have hle := countTrue_le_length (m.segments[i].valid)
  exact ⟨hcnt, by omega⟩

/-- C1 witness: the invariant holds concretely for segment 0 of a small
reachable store (2 segments of capacity 4 after one write). -/
theorem c1_utilization_invariant_witness :
    ((processWriteRequest 2 4 (initSegmentManager 2 4) ⟨0, 2⟩).1.segments.getD 0
        emptySegment).utilization =
      countTrue ((processWriteRequest 2 4 (initSegmentManager 2 4) ⟨0, 2⟩).1.segments.getD 0
        emptySegment).valid ∧
    ((processWriteRequest 2 4 (initSegmentManager 2 4) ⟨0, 2⟩).1.segments.getD 0
        emptySegment).utilization ≤ 4 :=
  c1_utilization_invariant 2 4 _
    (Reachable.step Reachable.init (Step.write (initSegmentManager 2 4) ⟨0, 2⟩))
    _ (by decide)

/-- C2: the GC victim, when one exists, is the segment with maximal
`invalidatedBytes` among segments with `utilization > 0`, ties going to the
lowest id (strictly larger `invalidatedBytes` is needed to displace an
earlier candidate); if no segment with `utilization > 0` has
`invalidatedBytes > 0`, no victim is chosen and collection is a no-op. -/
theorem c2_victim_selection (ns ss : Nat) (m : SegmentManager) :
    (∀ v, selectVictim m.segments = some v →
      v < m.segments.length ∧
      0 < (m.segments.getD v emptySegment).utilization ∧
      0 < (m.segments.getD v emptySegment).invalidatedBytes ∧
      (∀ j, j < m.segments.length → 0 < (m.segments.getD j emptySegment).utilization →
        (m.segments.getD j emptySegment).invalidatedBytes ≤
          (m.segments.getD v emptySegment).invalidatedBytes) ∧
      (∀ j, j < v → 0 < (m.segments.getD j emptySegment).utilization →
        (m.segments.getD j emptySegment).invalidatedBytes <
          (m.segments.getD v emptySegment).invalidatedBytes)) ∧
    ((∀ j, j < m.segments.length → 0 < (m.segments.getD j emptySegment).utilization →
        (m.segments.getD j emptySegment).invalidatedBytes = 0) →
      selectVictim m.segments = none ∧
      garbageCollect ns ss m = (m, GcOutcome.NoVictim)) :=
  ⟨fun v hv => selectVictim_some m.segments v hv,
   fun h => ⟨selectVictim_none m.segments h,
     garbageCollect_noVictim ns ss m (selectVictim_none m.segments h)⟩⟩

/-- C2 witness: with segment A at `utilization 5, invalidatedBytes 10` and
segment B at `utilization 3, invalidatedBytes 20`, the victim is B (id 1),
and B's invalidation count dominates every used segment. -/
theorem c2_victim_selection_witness :
    0 < (victimDemo.segments.getD 1 emptySegment).utilization ∧
    0 < (victimDemo.segments.getD 1 emptySegment).invalidatedBytes ∧
    (∀ j, j < victimDemo.segments.length →
      0 < (victimDemo.segments.getD j emptySegment).utilization →
      (victimDemo.segments.getD j emptySegment).invalidatedBytes ≤
        (victimDemo.segments.getD 1 emptySegment).invalidatedBytes) :=
  have h := (c2_victim_selection 2 8 victimDemo).1 1 (by decide)
  ⟨h.2.1, h.2.2.1, h.2.2.2.1⟩

/-- C3 counterexample: from a reachable 2-segment store of capacity 4
(where segment 0 holds 2 valid and 2 invalidated bytes), the request
`(offset 0, size 5)` fails allocation even after the forced GC, yet
`gcCount` rises from 0 to 1 — so "no counters mutate" is false as stated. -/
theorem c3_counterexample :
    (processWriteRequest 2 4 failDemo2 ⟨0, 5⟩).2 = WriteOutcome.AllocationFailure ∧
    failDemo2.gcCount = 0 ∧
    (processWriteRequest 2 4 failDemo2 ⟨0, 5⟩).1.gcCount = 1 := by
  refine ⟨?_, ?_, ?_⟩ <;> decide

/-- C3 (amended): if the initial allocation finds no segment, one garbage
collection runs and allocation is retried exactly once; if the retry also
fails, the request ends in `AllocationFailure`, the final state is exactly
the post-GC state, and `totalWrites` and `totalInvalidated` are unchanged —
but the forced GC itself may have incremented `gcCount` and
`totalGcCost`. -/
theorem c3_allocation_failure (ns ss : Nat) (m : SegmentManager) (r : WriteRequest)
    (h1 : findSegmentForWrite ss m r.size = none)
    (h2 : findSegmentForWrite ss (garbageCollect ns ss m).1 r.size = none) :
    processWriteRequest ns ss m r =
      ((garbageCollect ns ss m).1, WriteOutcome.AllocationFailure) ∧
    (processWriteRequest ns ss m r).1.totalWrites = m.totalWrites ∧
    (processWriteRequest ns ss m r).1.totalInvalidated = m.totalInvalidated := by
  have hfail := processWriteRequest_fail ns ss m r h1 h2
  have hgc := garbageCollect_tw_ti ns ss m
  refine ⟨hfail, ?_, ?_⟩
  · rw [hfail]
    exact hgc.1
  · rw [hfail]
    exact hgc.2.1

/-- C3 witness: the amended statement at the concrete failing request. -/
theorem c3_allocation_failure_witness :
    processWriteRequest 2 4 failDemo2 ⟨0, 5⟩ =
      ((garbageCollect 2 4 failDemo2).1, WriteOutcome.AllocationFailure) ∧
    (processWriteRequest 2 4 failDemo2 ⟨0, 5⟩).1.totalWrites = failDemo2.totalWrites ∧
    (processWriteRequest 2 4 failDemo2 ⟨0, 5⟩).1.totalInvalidated =
      failDemo2.totalInvalidated :=
  c3_allocation_failure 2 4 failDemo2 ⟨0, 5⟩ (by decide) (by decide)

/-- C4: whenever GC reclaims a victim, with
`fillRatio = totalWrites / (N * capacity)`: if `fillRatio < 1` the cost is
exactly `2 / (1 - fillRatio)` and is added to `totalGcCost`; otherwise the
outcome carries the infinite sentinel (`none`, not a number) and
`totalGcCost` is unchanged; `gcCount` increments by exactly 1 either way. -/
theorem c4_gc_cost (ns ss : Nat) (m : SegmentManager) (v d : Nat)
    (hv : selectVictim m.segments = some v)
    (hd : findSegmentForWrite ss m 0 = some d) :
    (garbageCollect ns ss m).1.gcCount = m.gcCount + 1 ∧
    ((m.totalWrites : ℚ) / ((ns : ℚ) * (ss : ℚ)) < 1 →
      (garbageCollect ns ss m).2 = GcOutcome.VictimReclaimed v
        (some (2 / (1 - (m.totalWrites : ℚ) / ((ns : ℚ) * (ss : ℚ))))) ∧
      (garbageCollect ns ss m).1.totalGcCost =
        m.totalGcCost + 2 / (1 - (m.totalWrites : ℚ) / ((ns : ℚ) * (ss : ℚ)))) ∧
    (¬ ((m.totalWrites : ℚ) / ((ns : ℚ) * (ss : ℚ)) < 1) →
      (garbageCollect ns ss m).2 = GcOutcome.VictimReclaimed v none ∧
      (garbageCollect ns ss m).1.totalGcCost = m.totalGcCost) := by
  have hdiv : Rat.divInt m.totalWrites (ns * ss) =
      (m.totalWrites : ℚ) / ((ns : ℚ) * (ss : ℚ)) := by
    rw [Rat.divInt_eq_div]
    push_cast
    ring
  have h := garbageCollect_reclaim ns ss m v d hv hd
  rw [hdiv] at h
  exact ⟨h.2.2.1, h.2.2.2.2.2.2.1, h.2.2.2.2.2.2.2⟩

/-- C4 witness: the cost accounting at a concrete reclaim (2 segments of
capacity 4, 2 writes so far, victim 0, destination 0). -/
theorem c4_gc_cost_witness :
    (garbageCollect 2 4 failDemo2).1.gcCount = failDemo2.gcCount + 1 ∧
    ((failDemo2.totalWrites : ℚ) / ((2 : ℚ) * (4 : ℚ)) < 1 →
      (garbageCollect 2 4 failDemo2).2 = GcOutcome.VictimReclaimed 0
        (some (2 / (1 - (failDemo2.totalWrites : ℚ) / ((2 : ℚ) * (4 : ℚ))))) ∧
      (garbageCollect 2 4 failDemo2).1.totalGcCost =
        failDemo2.totalGcCost +
          2 / (1 - (failDemo2.totalWrites : ℚ) / ((2 : ℚ) * (4 : ℚ)))) ∧
    (¬ ((failDemo2.totalWrites : ℚ) / ((2 : ℚ) * (4 : ℚ)) < 1) →
      (garbageCollect 2 4 failDemo2).2 = GcOutcome.VictimReclaimed 0 none ∧
      (garbageCollect 2 4 failDemo2).1.totalGcCost = failDemo2.totalGcCost) :=
  c4_gc_cost 2 4 failDemo2 0 0 (by decide) (by decide)

/-- C5: from a fresh store, `write(0,5)` then `write(2,3)` leaves the target
segment with `utilization 5` and `invalidatedBytes 3`, the store with
`totalInvalidated 3` and `totalWrites 2`; in general, overwriting a fully
valid range leaves the segment's utilization unchanged while its
`invalidatedBytes` (and the store's `totalInvalidated`) grow by the number
of previously valid bytes touched. -/
theorem c5_overwrite :
    ((scenarioW2.segments.getD 0 emptySegment).utilization = 5 ∧
     (scenarioW2.segments.getD 0 emptySegment).invalidatedBytes = 3 ∧
     scenarioW2.totalInvalidated = 3 ∧
     scenarioW2.totalWrites = 2) ∧
    (∀ (ss : Nat) (s : Segment) (ti offset size : Nat), SegWF ss s →
      (∀ k, k < size → offset + k < ss ∧ s.valid.getD (offset + k) false = true) →
      (writeToSegment ss (invalidateOldData ss (s, ti) offset size).1 offset
          size).utilization = s.utilization ∧
      (writeToSegment ss (invalidateOldData ss (s, ti) offset size).1 offset
          size).invalidatedBytes = s.invalidatedBytes + size ∧
      (invalidateOldData ss (s, ti) offset size).2 = ti + size) := by
  constructor
  · refine ⟨?_, ?_, ?_, ?_⟩ <;> decide
  · intro ss s ti offset size hwf hall
    have hq := invalidateOldData_all_valid ss size offset (s, ti) hwf hall
    have hqwf := invalidateOldData_wf ss size offset (s, ti) hwf
    have hclear : ∀ k, k < size →
        offset + k < ss ∧
        (invalidateOldData ss (s, ti) offset size).1.valid.getD (offset + k) false =
          false := by
      intro k hk
      refine ⟨(hall k hk).1, ?_⟩
      exact invalidateOldData_clears ss size offset (s, ti) hwf.1 k hk (hall k hk).1
    have hw := writeToSegment_all_invalid ss size offset
      (invalidateOldData ss (s, ti) offset size).1 hqwf hclear
    have hb := writeToSegment_basic ss size offset
      (invalidateOldData ss (s, ti) offset size).1
    refine ⟨?_, ?_, hq.2.2⟩
    · rw [hw]
      exact hq.1
    · rw [hb.2.1]
      exact hq.2.1

/-- C5 witness: the general overwrite law at a concrete segment — rewriting
the single valid byte of `clipSeg` keeps utilization at 1 and bumps
`invalidatedBytes` to 1. -/
theorem c5_overwrite_witness :
    (writeToSegment 4 (invalidateOldData 4 (clipSeg, 0) 0 1).1 0 1).utilization =
      clipSeg.utilization ∧
    (writeToSegment 4 (invalidateOldData 4 (clipSeg, 0) 0 1).1 0 1).invalidatedBytes =
      clipSeg.invalidatedBytes + 1 ∧
    (invalidateOldData 4 (clipSeg, 0) 0 1).2 = 0 + 1 :=
  c5_overwrite.2 4 clipSeg 0 0 1 (by decide) (by decide)

/-- C6: `needsCollection` is true exactly when the fraction of segments
with positive utilization reaches the 0.9 threshold. -/
theorem c6_needs_collection (ns : Nat) (m : SegmentManager) :
    isGarbageCollectionNeeded ns m = true ↔
      (9 : ℚ) / 10 ≤ (usedSegments m : ℚ) / (ns : ℚ) := by
  unfold isGarbageCollectionNeeded
  rw [decide_eq_true_eq, Rat.divInt_eq_div, Rat.divInt_eq_div]
  push_cast
  exact Iff.rfl

/-- C7: across every operation, the global counters `totalWrites`,
`totalInvalidated` and `gcCount` never decrease, and a segment's
`invalidatedBytes` never decreases except that it resets to 0 exactly when
that segment is reclaimed as the GC victim. -/
theorem c7_monotone_counters (ns ss : Nat) (m : SegmentManager) (r : WriteRequest) :
    (m.totalWrites ≤ (processWriteRequest ns ss m r).1.totalWrites ∧
     m.totalInvalidated ≤ (processWriteRequest ns ss m r).1.totalInvalidated ∧
     m.gcCount ≤ (processWriteRequest ns ss m r).1.gcCount ∧
     (∀ k, (m.segments.getD k emptySegment).invalidatedBytes ≤
         ((processWriteRequest ns ss m r).1.segments.getD k emptySegment).invalidatedBytes ∨
       ∃ c, (garbageCollect ns ss m).2 = GcOutcome.VictimReclaimed k c)) ∧
    (m.totalWrites ≤ (garbageCollect ns ss m).1.totalWrites ∧
     m.totalInvalidated ≤ (garbageCollect ns ss m).1.totalInvalidated ∧
     m.gcCount ≤ (garbageCollect ns ss m).1.gcCount ∧
     (∀ k, ((garbageCollect ns ss m).1.segments.getD k emptySegment).invalidatedBytes =
         (m.segments.getD k emptySegment).invalidatedBytes ∨
       (((garbageCollect ns ss m).1.segments.getD k emptySegment).invalidatedBytes = 0 ∧
         ∃ c, (garbageCollect ns ss m).2 = GcOutcome.VictimReclaimed k c)) ∧
     (∀ k c, (garbageCollect ns ss m).2 = GcOutcome.VictimReclaimed k c →
       ((garbageCollect ns ss m).1.segments.getD k emptySegment).invalidatedBytes = 0)) := by
  have hp := processWriteRequest_counters ns ss m r
  have hg := garbageCollect_tw_ti ns ss m
  refine ⟨⟨hp.1, hp.2.1, hp.2.2.1, hp.2.2.2⟩,
    ⟨Nat.le_of_eq hg.1.symm, Nat.le_of_eq hg.2.1.symm, hg.2.2, ?_, ?_⟩⟩
  · exact fun k => garbageCollect_inv ns ss m k
  · exact fun k c h => garbageCollect_reclaim_inv_zero ns ss m k c h

/-- C7 witness: the monotonicity facts at a concrete store and request. -/
theorem c7_monotone_counters_witness :
    failDemo2.totalWrites ≤ (processWriteRequest 2 4 failDemo2 ⟨0, 5⟩).1.totalWrites ∧
    failDemo2.totalInvalidated ≤
      (processWriteRequest 2 4 failDemo2 ⟨0, 5⟩).1.totalInvalidated ∧
    failDemo2.gcCount ≤ (garbageCollect 2 4 failDemo2).1.gcCount :=
  ⟨(c7_monotone_counters 2 4 failDemo2 ⟨0, 5⟩).1.1,
   (c7_monotone_counters 2 4 failDemo2 ⟨0, 5⟩).1.2.1,
   (c7_monotone_counters 2 4 failDemo2 ⟨0, 5⟩).2.2.2.1⟩

/-- C8: out-of-range offsets and sizes are silently clipped, never
rejected: invalidation and writing touch only positions in
`[offset, offset+size) ∩ [0, capacity)` (writing marks them valid,
invalidation clears them), and a request whose range extends past the
segment end is still accepted whenever allocation succeeds. -/
theorem c8_clipping :
    (∀ (ss : Nat) (s : Segment) (ti offset size j : Nat),
      ¬ (offset ≤ j ∧ j < offset + size ∧ j < ss) →
      (invalidateOldData ss (s, ti) offset size).1.valid.getD j false =
        s.valid.getD j false ∧
      (writeToSegment ss s offset size).valid.getD j false = s.valid.getD j false) ∧
    (∀ (ss : Nat) (s : Segment) (ti offset size k : Nat), s.valid.length = ss →
      k < size → offset + k < ss →
      (writeToSegment ss s offset size).valid.getD (offset + k) false = true ∧
      (invalidateOldData ss (s, ti) offset size).1.valid.getD (offset + k) false =
        false) ∧
    (∀ (ns ss : Nat) (m : SegmentManager) (r : WriteRequest) (idx : Nat),
      findSegmentForWrite ss m r.size = some idx →
      (processWriteRequest ns ss m r).2 = WriteOutcome.Accepted) := by
  refine ⟨?_, ?_, ?_⟩
  · intro ss s ti offset size j h
    have hcond : ((∀ k, k < size → offset + k ≠ j) ∨ ss ≤ j) := by
      by_cases hss : ss ≤ j
      · exact Or.inr hss
      · left
        intro k hk
        omega
    exact ⟨invalidateOldData_frame ss size offset (s, ti) j hcond,
      writeToSegment_frame ss size offset s j hcond⟩
  · intro ss s ti offset size k hlen hk hb
    exact ⟨writeToSegment_sets ss size offset s hlen k hk hb,
      invalidateOldData_clears ss size offset (s, ti) hlen k hk hb⟩
  · intro ns ss m r idx h
    rw [processWriteRequest_accept ns ss m r idx h]

/-- C8 witness: position 0 of `clipSeg` is untouched by a `(2,5)` range
that runs past the capacity-4 end, and a request reaching past the segment
end is still accepted. -/
theorem c8_clipping_witness :
    ((invalidateOldData 4 (clipSeg, 0) 2 5).1.valid.getD 0 false =
       clipSeg.valid.getD 0 false ∧
     (writeToSegment 4 clipSeg 2 5).valid.getD 0 false = clipSeg.valid.getD 0 false) ∧
    (processWriteRequest 2 4 failDemo2 ⟨7, 2⟩).2 = WriteOutcome.Accepted :=
  ⟨c8_clipping.1 4 clipSeg 0 2 5 0 (by decide),
   c8_clipping.2.2 2 4 failDemo2 ⟨7, 2⟩ 0 (by decide)⟩

/-- C9: the allocator scans segments in ascending id order and returns the
first segment with `utilization + size ≤ capacity`; it returns `none`
exactly when no segment qualifies. -/
theorem c9_first_fit (ss : Nat) (m : SegmentManager) (size : Nat) :
    (∀ i, findSegmentForWrite ss m size = some i ↔
      (i < m.segments.length ∧
       (m.segments.getD i emptySegment).utilization + size ≤ ss ∧
       ∀ j, j < i → ¬ ((m.segments.getD j emptySegment).utilization + size ≤ ss))) ∧
    (findSegmentForWrite ss m size = none ↔
      ∀ i, i < m.segments.length →
        ¬ ((m.segments.getD i emptySegment).utilization + size ≤ ss)) := by
  constructor
  · intro i
    rw [findSegmentForWrite, findSegAux_some]
    constructor
    · rintro ⟨k, hk, hik, hcond, hmin⟩
      have hki : k = i := by omega
      subst hki
      exact ⟨hk, hcond, fun j hj => hmin j hj⟩
    · rintro ⟨hi, hcond, hmin⟩
      exact ⟨i, hi, by omega, hcond, fun k' hk' => hmin k' hk'⟩
  · rw [findSegmentForWrite, findSegAux_none]

/-- C10: under the store invariant, the zero-size allocator call always
succeeds and returns segment 0 (since `utilization + 0 ≤ capacity` always
holds), so once a victim is chosen the `NoDestination` outcome is
unreachable and compaction always copies into segment 0. -/
theorem c10_zero_size_alloc (ns ss : Nat) (m : SegmentManager) (hwf : WF ss m)
    (hne : 0 < m.segments.length) :
    findSegmentForWrite ss m 0 = some 0 ∧
    (garbageCollect ns ss m).2 ≠ GcOutcome.NoDestination ∧
    (∀ v, selectVictim m.segments = some v →
      ∃ c, (garbageCollect ns ss m).2 = GcOutcome.VictimReclaimed v c) := by
  have hfind : findSegmentForWrite ss m 0 = some 0 := by
    cases hsegs : m.segments with
    | nil =>
      rw [hsegs] at hne
      simp at hne
    | cons s rest =>
      have h0 := hwf 0 hne
      rw [hsegs] at h0
      have h0' : SegWF ss s := h0
      have hcl := countTrue_le_length s.valid
      have hle : s.utilization + 0 ≤ ss := by
        have h1 := h0'.1
        have h2 := h0'.2
        omega
      rw [findSegmentForWrite, hsegs]
      unfold findSegAux
      rw [if_pos hle]
  refine ⟨hfind, ?_, ?_⟩
  · cases hv : selectVictim m.segments with
    | none =>
      rw [garbageCollect_noVictim ns ss m hv]
      intro hcon
      cases hcon
    | some v =>
      obtain ⟨c, hc⟩ := garbageCollect_outcome ns ss m v 0 hv hfind
      rw [hc]
      intro hcon
      cases hcon
  · intro v hv
    exact garbageCollect_outcome ns ss m v 0 hv hfind

/-- C10 witness: on the concrete well-formed 2×4 store the zero-size call
returns segment 0 and the chosen victim is reclaimed (never
`NoDestination`). -/
theorem c10_zero_size_alloc_witness :
    findSegmentForWrite 4 failDemo2 0 = some 0 ∧
    ∃ c, (garbageCollect 2 4 failDemo2).2 = GcOutcome.VictimReclaimed 0 c :=
  have h := c10_zero_size_alloc 2 4 failDemo2 (by decide) (by decide)
  ⟨h.1, h.2.2 0 (by decide)⟩

end SegSim
